import Mathlib

/-!
Verification of the acme-search aggregation/ranking/scoring engine.

Shallow embedding conventions:
- Go `fuzzy.Score` (a float64 ranging over the extended reals, with the
  infinities used as "no match" / "maximal match" sentinels) is embedded as an
  inductive type with a `negInf` / `val (q : ℚ)` / `posInf` alternative.  All
  arithmetic the program performs combines a non-`posInf` value with a finite
  constant, where float64 and exact rational arithmetic agree on everything the
  claims talk about (sentinels, sign, and order).
- Go strings are embedded as `List Char` (or `String`); the embedding treats
  each character as one byte, i.e. it models the ASCII fragment, where Go's
  byte-indexed rune iteration coincides with indexed list traversal.
- Go's `container/heap` is embedded through the documented contract of
  `heap.Pop` with `ResultHeap.Less i j = (Score i > Score j)`: popping removes
  and returns a maximal-score element (tie order among equal scores is
  unspecified by the heap and is fixed here as first-listed).
- Panics (out-of-bounds slice accesses) are embedded as `Option`, `none`
  signalling the panic.
-/

/-- Embeds `fuzzy.Score` (float64 over the extended reals). -/
inductive Score where
  | negInf : Score
  | val : ℚ → Score
  | posInf : Score
deriving DecidableEq

namespace Score

/-- float64 `<` restricted to non-NaN values. -/
def blt : Score → Score → Bool
  | negInf, negInf => false
  | negInf, _ => true
  | val _, negInf => false
  | val a, val b => decide (a < b)
  | val _, posInf => true
  | posInf, _ => false

instance : LT Score := ⟨fun a b => blt a b = true⟩

instance (a b : Score) : Decidable (a < b) :=
  inferInstanceAs (Decidable (blt a b = true))

/-- float64 addition; `posInf + negInf` never occurs in the program
(the DP never produces `posInf`, see `matchRows_ne_posInf`). -/
def add : Score → Score → Score
  | negInf, _ => negInf
  | _, negInf => negInf
  | posInf, _ => posInf
  | _, posInf => posInf
  | val a, val b => val (a + b)

/-- Go's builtin `max` on float64 (no NaN arises in the program). -/
def smax (a b : Score) : Score := if blt a b then b else a

end Score

namespace fuzzy

/-- Embeds `ScoreGapLeading`; kept as a rational because its only use is the finite
product `Score(j) * ScoreGapLeading`. -/
def scoreGapLeading : ℚ := -5/1000

def scoreGapTrailing : Score := .val (-5/1000)

def scoreGapInner : Score := .val (-1/100)

def scoreMatchConsecutive : Score := .val 1

def scoreMatchSlash : Score := .val (9/10)

def scoreMatchWord : Score := .val (8/10)

def scoreMatchCapital : Score := .val (7/10)

def scoreMatchDot : Score := .val (6/10)

/-- The `bonusIndex` table: 2 for `A`..`Z`, 1 for `a`..`z` and `0`..`9`,
0 otherwise. -/
def bonusIndex (c : Char) : Nat :=
  if 'A' ≤ c ∧ c ≤ 'Z' then 2
  else if ('a' ≤ c ∧ c ≤ 'z') ∨ ('0' ≤ c ∧ c ≤ '9') then 1
  else 0

/-- Row 1 of the `bonusStates` table, indexed by the previous character. -/
def bonusState1 (prev : Char) : Score :=
  if prev = '/' then scoreMatchSlash
  else if prev = '-' ∨ prev = '_' ∨ prev = ' ' then scoreMatchWord
  else if prev = '.' then scoreMatchDot
  else .val 0

/-- Row 2 of the `bonusStates` table: row 1 plus `a`..`z` mapping to
`ScoreMatchCapital`. -/
def bonusState2 (prev : Char) : Score :=
  if 'a' ≤ prev ∧ prev ≤ 'z' then scoreMatchCapital
  else bonusState1 prev

/-- Models `bonusStates[bonusIndex[byte(current)]][byte(prev)]`. -/
def computeBonus (prev curr : Char) : Score :=
  match bonusIndex curr with
  | 1 => bonusState1 prev
  | 2 => bonusState2 prev
  | _ => .val 0

def precomputeBonusGo (prev : Char) : List Char → List Score
  | [] => []
  | r :: rest => computeBonus prev r :: precomputeBonusGo r rest

/-- Models `precomputeBonus`: bonus of each haystack position given its predecessor,
with an initial virtual `/` predecessor. -/
def precomputeBonus (haystack : List Char) : List Score :=
  precomputeBonusGo '/' haystack

/-- Models `strings.ToLower` on the ASCII fragment. -/
def lower (s : List Char) : List Char := s.map Char.toLower

/-- The `match` struct. -/
structure Matcher where
  needleLower : List Char
  haystackLower : List Char
  matchBonus : List Score

/-- Models `newMatch`: `none` models the Go `nil` returned when the needle is longer
than the haystack. -/
def newMatch (needle haystack : List Char) : Option Matcher :=
  if needle.length > haystack.length then none
  else some ⟨lower needle, lower haystack, precomputeBonus haystack⟩

/-- Inner loop of `matchRow` over haystack positions `j`, carrying
`prevScore`; produces the `curr_D` and `curr_M` rows.  Reads of `last_D[j-1]`
and `last_M[j-1]` are by position with a (never reached) zero default,
mirroring the zero-initialised Go rows. -/
def matchRowGo (m : Matcher) (i : Nat) (nr : Char) (gapScore : Score)
    (last_D last_M : List Score) :
    Nat → Score → List Char → List Score × List Score
  | _, _, [] => ([], [])
  | j, prevScore, r :: rest =>
    if nr = r then
      let score : Score :=
        if i = 0 then
          (Score.val ((j : ℚ) * scoreGapLeading)).add (m.matchBonus.getD j (.val 0))
        else if 0 < j then
          Score.smax ((last_M.getD (j - 1) (.val 0)).add (m.matchBonus.getD j (.val 0)))
            ((last_D.getD (j - 1) (.val 0)).add scoreMatchConsecutive)
        else Score.negInf
      let prevScore2 := Score.smax score (prevScore.add gapScore)
      let (ds, ms) := matchRowGo m i nr gapScore last_D last_M (j + 1) prevScore2 rest
      (score :: ds, prevScore2 :: ms)
    else
      let prevScore2 := prevScore.add gapScore
      let (ds, ms) := matchRowGo m i nr gapScore last_D last_M (j + 1) prevScore2 rest
      (Score.negInf :: ds, prevScore2 :: ms)

/-- Models `match.matchRow` for needle index `i`, needle rune `nr`. -/
def matchRow (m : Matcher) (i : Nat) (nr : Char) (last_D last_M : List Score) :
    List Score × List Score :=
  let gapScore := if i = m.needleLower.length - 1 then scoreGapTrailing else scoreGapInner
  matchRowGo m i nr gapScore last_D last_M 0 Score.negInf m.haystackLower

/-- The row loop of `Match`: `for i, r := range m.needleLower`, threading the
rolling rows (the Go buffer swap). -/
def matchRows (m : Matcher) : Nat → List Score → List Score → List Char →
    List Score × List Score
  | _, last_D, last_M, [] => (last_D, last_M)
  | i, last_D, last_M, nr :: rest =>
    let dm := matchRow m i nr last_D last_M
    matchRows m (i + 1) dm.1 dm.2 rest

/-- Models `fuzzy.Match` (src/unnamed/part_000 revision): empty or over-long needle
is no-match; equal byte lengths are a maximal match; otherwise the DP. -/
def Match (needle haystack : List Char) : Score :=
  if needle = [] then Score.negInf
  else
    match newMatch needle haystack with
    | none => Score.negInf
    | some m =>
      if needle.length = haystack.length then Score.posInf
      else
        let init_D := List.replicate haystack.length (Score.val 0)
        let init_M := List.replicate haystack.length (Score.val 0)
        let dm := matchRows m 0 init_D init_M m.needleLower
        dm.2.getD (haystack.length - 1) (Score.val 0)

/-- A slice write `l[i] = x`; `none` models the Go index-out-of-range panic. -/
def setChecked {α : Type} (l : List α) (i : Nat) (x : α) : Option (List α) :=
  if i < l.length then some (l.set i x) else none

/-- The `MatchPositions` table initialisation: `D`/`M` are allocated with
`len(needle)` rows, but the initialisation loop runs `for i := range haystack`,
writing a row at every haystack index. -/
def initTables (needleLen hayLen : Nat) : Option (List (List Score)) :=
  (List.range hayLen).foldlM
    (fun rows i => setChecked rows i (List.replicate hayLen (Score.val 0)))
    (List.replicate needleLen ([] : List Score))

/-- The `MatchPositions` fill loop: `curr_D = D[i]`, `matchRow`, into rolling
rows; functionally the computed row is stored back at index `i`. -/
def fillTables (m : Matcher) : Nat → List Score → List Score →
    List (List Score) → List (List Score) → List Char →
    Option (List (List Score) × List (List Score))
  | _, _, _, D, M, [] => some (D, M)
  | i, last_D, last_M, D, M, nr :: rest => do
    let dm := matchRow m i nr last_D last_M
    let D2 ← setChecked D i dm.1
    let M2 ← setChecked M i dm.2
    fillTables m (i + 1) dm.1 dm.2 D2 M2 rest

/-- Inner backtracking loop: scan `j` downwards for a cell of row `i` on the
optimal path; returns the decremented `j` recorded into `positions[i]` and the
updated `matchRequired`, or `none` when `j` runs below zero. -/
def backtrackRow (D M : List (List Score)) (i : Nat) (matchRequired : Bool) :
    Nat → Int → Option (Int × Bool)
  | 0, _ => none
  | fuel + 1, j =>
    if j < 0 then none
    else
      let jn := j.toNat
      let Di := D.getD i []
      let Mi := M.getD i []
      if (Di.getD jn (Score.val 0)) ≠ Score.negInf ∧
          (matchRequired = true ∨ Di.getD jn (Score.val 0) = Mi.getD jn (Score.val 0)) then
        let mr : Bool := decide (i ≠ 0) && decide (jn ≠ 0) &&
          decide (Mi.getD jn (Score.val 0) =
            ((D.getD (i - 1) []).getD (jn - 1) (Score.val 0)).add scoreMatchConsecutive)
        some (j - 1, mr)
      else backtrackRow D M i matchRequired fuel (j - 1)

/-- Outer backtracking loop, `i` from `len(needle)-1` down to `0` (the
counter argument is `i + 1`); `j` persists across rows. -/
def backtrackGo (D M : List (List Score)) :
    Nat → Int → Bool → List Int → List Int
  | 0, _, _, positions => positions
  | k + 1, j, mr, positions =>
    match backtrackRow D M k mr (j.toNat + 2) j with
    | none => backtrackGo D M k (-1) mr positions
    | some (j2, mr2) => backtrackGo D M k j2 mr2 (positions.set k j2)

/-- Models `fuzzy.MatchPositions` (src/unnamed/part_000 revision).  `none` models a
panic.  The equal-length branch fills `positions` but returns the Go `nil`
slice (embedded as `[]`), so the fill is dropped. -/
def MatchPositions (needle haystack : List Char) : Option (Score × List Int) :=
  let positions := List.replicate needle.length (0 : Int)
  if needle.length > haystack.length then some (Score.negInf, [])
  else if needle.length = haystack.length then some (Score.posInf, [])
  else do
    let m ← newMatch needle haystack
    let D0 ← initTables needle.length haystack.length
    let M0 ← initTables needle.length haystack.length
    let DM ← fillTables m 0 [] [] D0 M0 m.needleLower
    let positions2 :=
      backtrackGo DM.1 DM.2 needle.length ((haystack.length : Int) - 1) false positions
    let score ← ((DM.2.getD (needle.length - 1) []).get? (haystack.length - 1))
    some (score, positions2)

end fuzzy

/-! ## The ranking store and render pass (src/cmd/Search/main.go) -/

def MaxResults : Nat := 100

/-- Models `Addr`, a structured location. -/
structure Addr where
  File : String
  FromLine : String
  FromColumn : String
  ToLine : String
  ToColumn : String
deriving DecidableEq

/-- Models `Addr.String`: textual form `file[:fromLine[.fromColumn][,toLine[.toColumn]]]`. -/
def Addr.render (a : Addr) : String :=
  let s := a.File
  if a.FromLine = "" then s
  else
    let s := s ++ ":" ++ a.FromLine
    let s := if a.FromColumn = "" then s else s ++ "." ++ a.FromColumn
    let s :=
      if a.ToLine = "" then s
      else
        let s := s ++ "," ++ a.ToLine
        if a.ToColumn = "" then s else s ++ "." ++ a.ToColumn
    s

/-- Models `Result`: text, optional address, score. -/
structure Result where
  Text : String
  Addr : Option Addr
  Score : Score
deriving DecidableEq

/-- Models `Result.Equals`: text and address, score excluded. -/
def Result.equals (r o : Result) : Prop := r.Text = o.Text ∧ r.Addr = o.Addr

/-- Models `heap.Pop` on `ResultHeap` (`Less i j = Score i > Score j`): removes and
returns a maximal-score element; the tie order among equal scores is not
specified by the heap and is fixed here as first-listed. -/
def popMax : List Result → Option (Result × List Result)
  | [] => none
  | r :: rest =>
    match popMax rest with
    | none => some (r, [])
    | some (m, rest2) =>
      if Score.blt r.Score m.Score then some (m, r :: rest2) else some (r, rest)

/-- Go map read with zero default (`seenInFile[file]`). -/
def lookupCount (files : List (String × Nat)) (f : String) : Nat :=
  match files with
  | [] => 0
  | (g, n) :: rest => if g = f then n else lookupCount rest f

/-- The extraction loop of `render`: pop while `i < MaxResults` and the heap is
non-empty; `i` (the output cursor) advances for address-less results, for the
very first pop, and for non-duplicate results whose file count is below 5.
Returns `(topN[:i], the pop sequence, the remaining heap)`.  The fuel argument
is the heap size; each iteration pops one element, so it never runs out. -/
def extractGo : Nat → List Result → Nat → List Addr → List (String × Nat) →
    List Result × List Result × List Result
  | 0, store, _, _, _ => ([], [], store)
  | fuel + 1, store, i, seen, files =>
    if i < MaxResults ∧ store ≠ [] then
      match popMax store with
      | none => ([], [], store)
      | some (r, rest) =>
        match r.Addr with
        | none =>
          let kps := extractGo fuel rest (i + 1) seen files
          (r :: kps.1, r :: kps.2.1, kps.2.2)
        | some a =>
          let isDup : Bool := decide (a ∈ seen)
          let seen2 := if isDup then seen else a :: seen
          let count := lookupCount files a.File
          let files2 := (a.File, count + 1) :: files
          if i = 0 ∨ (count < 5 ∧ isDup = false) then
            let kps := extractGo fuel rest (i + 1) seen2 files2
            (r :: kps.1, r :: kps.2.1, kps.2.2)
          else
            let kps := extractGo fuel rest i seen2 files2
            (kps.1, r :: kps.2.1, kps.2.2)
    else ([], [], store)

/-- One snapshot extraction, as `render` performs it (cursor 0, empty maps). -/
def snapshot (store : List Result) : List Result × List Result × List Result :=
  extractGo store.length store 0 [] []

/-- The render goroutine's mutable state: the heap, `hasRendered`, `lastLen`. -/
structure RenderState where
  store : List Result
  hasRendered : Bool
  lastLen : Nat
deriving DecidableEq

/-- State at the start of a round: empty heap, nothing rendered, `lastLen = 0`. -/
def initialRenderState : RenderState := ⟨[], false, 0⟩

/-- The `render` closure: skip (`none`) when a render was already emitted and
the membership size is unchanged; otherwise extract, push the kept results
back, emit them, and record the new membership size. -/
def render (st : RenderState) : Option (List Result × RenderState) :=
  let currentLen := st.store.length
  if st.hasRendered = true ∧ currentLen = st.lastLen then none
  else
    let kps := snapshot st.store
    let store2 := kps.2.2 ++ kps.1
    some (kps.1, ⟨store2, true, store2.length⟩)

/-! ## Click resolution (`Range.Compare`, `Search.Plumb`) -/

/-- A half-open range `[Start, End)`. -/
structure Range where
  Start : Int
  End : Int
deriving DecidableEq

/-- Models `Range.Compare`: 1 before the range, -1 after (end-exclusive), 0 within. -/
def Range.Compare (r : Range) (i : Int) : Int :=
  if i < r.Start then 1
  else if r.End ≤ i then -1
  else 0

/-- Smallest index whose range compares `≥ 0` against the target (length if
none); together with `binarySearchFunc` this is the documented contract of
`slices.BinarySearchFunc` on a sorted slice. -/
def firstGE (ranges : List Range) (q0 : Int) : Nat :=
  match ranges with
  | [] => 0
  | r :: rest => if 0 ≤ r.Compare q0 then 0 else 1 + firstGE rest q0

/-- Models `slices.BinarySearchFunc(s.ranges, q0, Range.Compare)`: the insertion
index, and whether the element there compares equal. -/
def binarySearchFunc (ranges : List Range) (q0 : Int) : Nat × Bool :=
  let i := firstGE ranges q0
  (i, decide (i < ranges.length) && ((ranges.getD i ⟨0, 0⟩).Compare q0 == 0))

/-- Models `Search.Plumb`, up to the external `plumb` invocation: `some r` when the
offset resolves to a result carrying an address, `none` otherwise. -/
def Plumb (ranges : List Range) (results : List Result) (q0 : Int) : Option Result :=
  if ranges.length = 0 ∨ q0 < (ranges.headD ⟨0, 0⟩).Start then none
  else
    let ifound := binarySearchFunc ranges q0
    if ifound.2 = false then none
    else
      let r := results.getD ifound.1 ⟨"", none, Score.val 0⟩
      match r.Addr with
      | none => none
      | some _ => some r

/-! ## The merge/score/insert step (`Search.Search`) -/

/-- Models `strings.CutPrefix(s, pre)` (the kept string). -/
def cutPathPre (s pre : String) : String :=
  if pre.isPrefixOf s then s.drop pre.length else s

/-- The path-relativisation of an incoming result's address. -/
def relativizeAddr (path : String) (r : Result) : Result :=
  match r.Addr with
  | none => r
  | some a => { r with Addr := some { a with File := cutPathPre a.File (path ++ "/") } }

/-- Models `result.Score = fuzzy.Match(query, result.Text)`. -/
def scoreResult (query : String) (r : Result) : Result :=
  { r with Score := fuzzy.Match query.data r.Text.data }

/-- One merge-channel receive: relativise, score, and push onto the heap
if and only if the score is strictly positive. -/
def insertStep (query path : String) (store : List Result) (r : Result) : List Result :=
  let r2 := scoreResult query (relativizeAddr path r)
  if Score.blt (Score.val 0) r2.Score then r2 :: store else store

/-- The heap contents after a round receives `received` (no interleaved
renders). -/
def processRound (query path : String) (received : List Result) : List Result :=
  received.foldl (insertStep query path) []


/-! ## Basic facts about `Score` -/

theorem Score.lt_posInf_of_ne {a : Score} (h : a ≠ Score.posInf) : a < Score.posInf := by
  cases a with
  | negInf => exact rfl
  | val q => exact rfl
  | posInf => exact absurd rfl h

theorem Score.add_ne_posInf {a b : Score} (ha : a ≠ Score.posInf) (hb : b ≠ Score.posInf) :
    a.add b ≠ Score.posInf := by
  cases a <;> cases b <;> simp_all [Score.add]

theorem Score.smax_ne_posInf {a b : Score} (ha : a ≠ Score.posInf) (hb : b ≠ Score.posInf) :
    a.smax b ≠ Score.posInf := by
  unfold Score.smax
  split <;> assumption

theorem List.getD_ne_posInf {l : List Score} {d : Score} (hl : ∀ x ∈ l, x ≠ Score.posInf)
    (hd : d ≠ Score.posInf) (n : Nat) : l.getD n d ≠ Score.posInf := by
  rcases h : l[n]? with _ | x
  · simpa [List.getD, h] using hd
  · have : x ∈ l := List.getElem?_mem h
    simpa [List.getD, h] using hl x this

/-! ## The DP never produces the maximal-match sentinel -/

namespace fuzzy

theorem bonusState1_ne_posInf (prev : Char) : bonusState1 prev ≠ Score.posInf := by
  unfold bonusState1
  split
  · simp [scoreMatchSlash]
  split
  · simp [scoreMatchWord]
  split
  · simp [scoreMatchDot]
  · simp

theorem bonusState2_ne_posInf (prev : Char) : bonusState2 prev ≠ Score.posInf := by
  unfold bonusState2
  split
  · simp [scoreMatchCapital]
  · exact bonusState1_ne_posInf prev

theorem computeBonus_ne_posInf (prev curr : Char) : computeBonus prev curr ≠ Score.posInf := by
  unfold computeBonus
  split
  · exact bonusState1_ne_posInf prev
  · exact bonusState2_ne_posInf prev
  · simp

theorem precomputeBonusGo_ne_posInf (prev : Char) (l : List Char) :
    ∀ x ∈ precomputeBonusGo prev l, x ≠ Score.posInf := by
  induction l generalizing prev with
  | nil => simp [precomputeBonusGo]
  | cons r rest ih =>
    simp only [precomputeBonusGo, List.mem_cons]
    rintro x (rfl | hx)
    · exact computeBonus_ne_posInf prev r
    · exact ih r x hx

theorem matchRowGo_ne_posInf (m : Matcher) (i : Nat) (nr : Char) (gapScore : Score)
    (last_D last_M : List Score)
    (hD : ∀ x ∈ last_D, x ≠ Score.posInf) (hM : ∀ x ∈ last_M, x ≠ Score.posInf)
    (hB : ∀ x ∈ m.matchBonus, x ≠ Score.posInf) (hg : gapScore ≠ Score.posInf) :
    ∀ (hay : List Char) (j : Nat) (prevScore : Score), prevScore ≠ Score.posInf →
      (∀ x ∈ (matchRowGo m i nr gapScore last_D last_M j prevScore hay).1,
        x ≠ Score.posInf) ∧
      (∀ x ∈ (matchRowGo m i nr gapScore last_D last_M j prevScore hay).2,
        x ≠ Score.posInf) := by
  intro hay
  induction hay with
  | nil => intro j prevScore _; simp [matchRowGo]
  | cons r rest ih =>
    intro j prevScore hp
    by_cases hc : nr = r
    · have hscore :
          (if i = 0 then
            (Score.val ((j : ℚ) * scoreGapLeading)).add (m.matchBonus.getD j (.val 0))
          else if 0 < j then
            Score.smax ((last_M.getD (j - 1) (.val 0)).add (m.matchBonus.getD j (.val 0)))
              ((last_D.getD (j - 1) (.val 0)).add scoreMatchConsecutive)
          else Score.negInf) ≠ Score.posInf := by
        split
        · exact Score.add_ne_posInf (by simp) (List.getD_ne_posInf hB (by simp) j)
        split
        · exact Score.smax_ne_posInf
            (Score.add_ne_posInf (List.getD_ne_posInf hM (by simp) (j - 1))
              (List.getD_ne_posInf hB (by simp) j))
            (Score.add_ne_posInf (List.getD_ne_posInf hD (by simp) (j - 1))
              (by simp [scoreMatchConsecutive]))
        · simp
      have hprev2 :
          Score.smax
            (if i = 0 then
              (Score.val ((j : ℚ) * scoreGapLeading)).add (m.matchBonus.getD j (.val 0))
            else if 0 < j then
              Score.smax ((last_M.getD (j - 1) (.val 0)).add (m.matchBonus.getD j (.val 0)))
                ((last_D.getD (j - 1) (.val 0)).add scoreMatchConsecutive)
            else Score.negInf) (prevScore.add gapScore) ≠ Score.posInf :=
        Score.smax_ne_posInf hscore (Score.add_ne_posInf hp hg)
      have ihr := ih (j + 1) _ hprev2
      constructor
      · intro x hx
        simp only [matchRowGo, if_pos hc] at hx
        rcases List.mem_cons.mp hx with rfl | hx
        · exact hscore
        · exact ihr.1 x hx
      · intro x hx
        simp only [matchRowGo, if_pos hc] at hx
        rcases List.mem_cons.mp hx with rfl | hx
        · exact hprev2
        · exact ihr.2 x hx
    · have hprev2 : prevScore.add gapScore ≠ Score.posInf := Score.add_ne_posInf hp hg
      have ihr := ih (j + 1) _ hprev2
      constructor
      · intro x hx
        simp only [matchRowGo, if_neg hc] at hx
        rcases List.mem_cons.mp hx with rfl | hx
        · simp
        · exact ihr.1 x hx
      · intro x hx
        simp only [matchRowGo, if_neg hc] at hx
        rcases List.mem_cons.mp hx with rfl | hx
        · exact hprev2
        · exact ihr.2 x hx

theorem matchRow_ne_posInf (m : Matcher) (i : Nat) (nr : Char)
    (last_D last_M : List Score)
    (hD : ∀ x ∈ last_D, x ≠ Score.posInf) (hM : ∀ x ∈ last_M, x ≠ Score.posInf)
    (hB : ∀ x ∈ m.matchBonus, x ≠ Score.posInf) :
    (∀ x ∈ (matchRow m i nr last_D last_M).1, x ≠ Score.posInf) ∧
    (∀ x ∈ (matchRow m i nr last_D last_M).2, x ≠ Score.posInf) := by
  unfold matchRow
  have hg : (if i = m.needleLower.length - 1 then scoreGapTrailing else scoreGapInner) ≠
      Score.posInf := by
    split
    · simp [scoreGapTrailing]
    · simp [scoreGapInner]
  exact matchRowGo_ne_posInf m i nr _ last_D last_M hD hM hB hg m.haystackLower 0
    Score.negInf (by simp)

theorem matchRows_ne_posInf (m : Matcher)
    (hB : ∀ x ∈ m.matchBonus, x ≠ Score.posInf) :
    ∀ (needle : List Char) (i : Nat) (last_D last_M : List Score),
      (∀ x ∈ last_D, x ≠ Score.posInf) → (∀ x ∈ last_M, x ≠ Score.posInf) →
      (∀ x ∈ (matchRows m i last_D last_M needle).1, x ≠ Score.posInf) ∧
      (∀ x ∈ (matchRows m i last_D last_M needle).2, x ≠ Score.posInf) := by
  intro needle
  induction needle with
  | nil => intro i last_D last_M hD hM; exact ⟨hD, hM⟩
  | cons nr rest ih =>
    intro i last_D last_M hD hM
    have hrow := matchRow_ne_posInf m i nr last_D last_M hD hM hB
    simpa only [matchRows] using ih (i + 1) _ _ hrow.1 hrow.2

theorem Match_ne_posInf_of_length_ne (q c : List Char) (h : q.length ≠ c.length) :
    Match q c ≠ Score.posInf := by
  unfold Match
  split
  · simp
  by_cases hgt : q.length > c.length
  · have hm : newMatch q c = none := by unfold newMatch; rw [if_pos hgt]
    simp [hm]
  · have hm : newMatch q c = some ⟨lower q, lower c, precomputeBonus c⟩ := by
      unfold newMatch; rw [if_neg hgt]
    simp only [hm, if_neg h]
    have hB : ∀ x ∈ precomputeBonus c, x ≠ Score.posInf :=
      precomputeBonusGo_ne_posInf '/' c
    have hrep : ∀ x ∈ List.replicate c.length (Score.val 0), x ≠ Score.posInf := by
      intro x hx
      rcases List.eq_of_mem_replicate hx with rfl
      simp
    have hrows := matchRows_ne_posInf ⟨lower q, lower c, precomputeBonus c⟩ hB
      (lower q) 0 (List.replicate c.length (Score.val 0))
      (List.replicate c.length (Score.val 0)) hrep hrep
    exact List.getD_ne_posInf hrows.2 (by simp) (c.length - 1)

end fuzzy

/-! ## Claim C2 -/

/-- Counterexample to C2 as stated: the empty query and empty candidate have
equal byte length and equal lowercased forms, yet `Match` returns the no-match
sentinel (the `needle == ""` check precedes the equal-length check), not the
maximal-match sentinel. -/
theorem C2_counterexample_empty_query :
    ([] : List Char).length = ([] : List Char).length ∧
    fuzzy.lower [] = fuzzy.lower [] ∧
    fuzzy.Match [] [] ≠ Score.posInf := by
  refine ⟨rfl, rfl, ?_⟩
  decide

/-- C2 (amended: the query must be non-empty): for every non-empty query `q`
and candidate `c` of equal byte length whose lowercased forms are equal,
`fuzzy.Match` returns the maximal-match sentinel `posInf`; and for every pair
whose byte lengths differ (every proper non-equal match), the score is
strictly below `posInf`. -/
theorem C2_equal_length_maximal (q c : List Char) :
    (q ≠ [] → q.length = c.length → fuzzy.lower q = fuzzy.lower c →
      fuzzy.Match q c = Score.posInf) ∧
    (q.length ≠ c.length → fuzzy.Match q c < Score.posInf) := by
  constructor
  · intro hq hlen _
    unfold fuzzy.Match
    rw [if_neg hq]
    have hm : fuzzy.newMatch q c =
        some ⟨fuzzy.lower q, fuzzy.lower c, fuzzy.precomputeBonus c⟩ := by
      unfold fuzzy.newMatch
      rw [if_neg (by omega)]
    simp only [hm, if_pos hlen]
  · intro hlen
    exact Score.lt_posInf_of_ne (fuzzy.Match_ne_posInf_of_length_ne q c hlen)

/-- Witness for C2: concrete equal-length pair and a concrete proper match. -/
theorem C2_witness :
    fuzzy.Match ['F', 'o', 'o'] ['f', 'o', 'o'] = Score.posInf ∧
    fuzzy.Match ['f', 'b'] ['f', 'o', 'o', 'b', 'a', 'r'] < Score.posInf := by
  constructor
  · exact (C2_equal_length_maximal ['F', 'o', 'o'] ['f', 'o', 'o']).1
      (by decide) (by decide) (by decide)
  · exact (C2_equal_length_maximal ['f', 'b'] ['f', 'o', 'o', 'b', 'a', 'r']).2 (by decide)

/-! ## Claim C3 -/

/-- C3: for every query `q` and candidate `c`, if `q` is empty or longer than
`c`, then `fuzzy.Match` returns the no-match sentinel `negInf`. -/
theorem C3_no_match_sentinel (q c : List Char) :
    (q = [] → fuzzy.Match q c = Score.negInf) ∧
    (c.length < q.length → fuzzy.Match q c = Score.negInf) := by
  constructor
  · intro h
    unfold fuzzy.Match
    rw [if_pos h]
  · intro h
    unfold fuzzy.Match
    by_cases hq : q = []
    · rw [if_pos hq]
    · rw [if_neg hq]
      have hm : fuzzy.newMatch q c = none := by
        unfold fuzzy.newMatch
        rw [if_pos h]
      simp only [hm]

/-- Witness for C3: the empty query, and a two-character query against a
one-character candidate. -/
theorem C3_witness :
    fuzzy.Match [] ['a'] = Score.negInf ∧
    fuzzy.Match ['a', 'b'] ['a'] = Score.negInf := by
  exact ⟨(C3_no_match_sentinel [] ['a']).1 rfl,
    (C3_no_match_sentinel ['a', 'b'] ['a']).2 (by decide)⟩

/-! ## Claim C1 -/

/-- Address shared by the duplicate pair below. -/
def dupAddr : Addr := ⟨"a.go", "1", "", "", ""⟩

/-- Higher-scored member of a duplicate pair (same text, same address). -/
def dupHigh : Result := ⟨"dup", some dupAddr, Score.val 2⟩

/-- Lower-scored member of the duplicate pair. -/
def dupLow : Result := ⟨"dup", some dupAddr, Score.val 1⟩

/-- C1 fails on the code: with a heap holding a duplicate pair, `render` pops
both, but only the kept prefix `topN[:i]` is pushed back — the duplicate is
overwritten in `topN` and never reinserted, so the store's membership shrinks
from `{dupHigh, dupLow}` to `{dupHigh}`.  The snapshot is destructive for
candidates excluded by the duplicate (or per-file cap) rule. -/
theorem C1_render_drops_excluded_duplicate :
    (render ⟨[dupHigh, dupLow], false, 0⟩).map (fun out => out.2.store) = some [dupHigh] ∧
    (([dupHigh] : List Result) : Multiset Result) ≠
      (([dupHigh, dupLow] : List Result) : Multiset Result) := by
  refine ⟨by decide, by decide⟩

/-! ## Claim C6 -/

/-- C6: a `render` call is skipped exactly by the idempotence check — if a
render has already been emitted and the store's membership size equals the
recorded `lastLen`, nothing is emitted; if no render has been emitted yet the
call always emits, and in particular the first render of a round (initial
state, zero candidates) is emitted. -/
theorem C6_render_idempotence (st : RenderState) :
    (st.hasRendered = true → st.store.length = st.lastLen → render st = none) ∧
    (st.hasRendered = false → (render st).isSome = true) ∧
    (render initialRenderState).isSome = true := by
  refine ⟨?_, ?_, by decide⟩
  · intro h1 h2
    unfold render
    rw [if_pos ⟨h1, h2⟩]
  · intro h1
    unfold render
    rw [if_neg (by simp [h1])]
    simp

/-- Witness for C6: a state with an emitted render and unchanged size skips;
a fresh state emits. -/
theorem C6_witness :
    render ⟨[dupHigh], true, 1⟩ = none ∧
    (render ⟨[dupHigh], false, 1⟩).isSome = true := by
  exact ⟨(C6_render_idempotence ⟨[dupHigh], true, 1⟩).1 rfl rfl,
    (C6_render_idempotence ⟨[dupHigh], false, 1⟩).2.1 rfl⟩

/-! ## Claim C9 -/

/-- Modelled from the spec: the grammar
`file[:fromLine[.fromColumn][,toLine[.toColumn]]]` — the file field alone when
`FromLine` is empty; otherwise the file, a colon and `FromLine`, then a dot and
`FromColumn` only when `FromColumn` is non-empty, then a comma and `ToLine`
only when `ToLine` is non-empty, followed by a dot and `ToColumn` only when
`ToColumn` is non-empty. -/
def addrGrammar (a : Addr) : String :=
  if a.FromLine = "" then a.File
  else
    a.File ++ ":" ++ a.FromLine
      ++ (if a.FromColumn = "" then "" else "." ++ a.FromColumn)
      ++ (if a.ToLine = "" then ""
          else "," ++ a.ToLine ++ (if a.ToColumn = "" then "" else "." ++ a.ToColumn))

/-- C9: `Addr.render` (the embedding of `Addr.String`) produces exactly the
grammar stated by the spec, for every `Addr` value. -/
theorem C9_addr_string_grammar (a : Addr) : Addr.render a = addrGrammar a := by
  unfold Addr.render addrGrammar
  rcases a with ⟨f, fl, fc, tl, tc⟩
  dsimp only
  by_cases h1 : fl = "" <;> by_cases h2 : fc = "" <;> by_cases h3 : tl = "" <;>
    by_cases h4 : tc = "" <;>
      simp only [h1, h2, h3, h4, if_pos, if_neg, if_true, if_false] <;>
        first
          | rfl
          | (apply String.ext
             simp [String.data_append])

/-! ## Claim C10 -/

/-- C10 fails on the code: `MatchPositions` allocates its `D`/`M` tables with
one row per needle character, but the initialisation loop iterates over the
haystack (`for i := range haystack`), so whenever the needle is strictly
shorter than the haystack the write `D[i]` at `i = len(needle)` panics with an
index out of range.  Concretely, needle `"a"` against haystack `"ab"` panics
(`none` in the embedding). -/
theorem C10_matchPositions_out_of_bounds :
    fuzzy.MatchPositions ['a'] ['a', 'b'] = none ∧
    (fuzzy.MatchPositions ['a', 'b'] ['a', 'b']).isSome = true := by
  refine ⟨by decide, by decide⟩

/-! ## Claims C4 and C5: snapshot extraction invariants -/

/-- Test used by the per-file cap statements: the result carries an address in
file `f`. -/
def hasFile (f : String) (r : Result) : Bool :=
  match r.Addr with
  | some a => a.File == f
  | none => false

/-- Test used by the dedup statements: the result's address is exactly `a`. -/
def hasAddr (a : Addr) (r : Result) : Bool := r.Addr == some a

theorem lookupCount_cons_self (f : String) (n : Nat) (files : List (String × Nat)) :
    lookupCount ((f, n) :: files) f = n := by
  simp [lookupCount]

theorem lookupCount_cons_ne (g f : String) (h : g ≠ f) (n : Nat)
    (files : List (String × Nat)) :
    lookupCount ((g, n) :: files) f = lookupCount files f := by
  simp [lookupCount, h]

/-- Once an address is in `seenAtAddr` (and the cursor has moved off zero), no
further popped result at that address is kept. -/
theorem extractGo_kept_addr_zero (a : Addr) :
    ∀ (fuel : Nat) (store : List Result) (i : Nat) (seen : List Addr)
      (files : List (String × Nat)), a ∈ seen → i ≠ 0 →
      (extractGo fuel store i seen files).1.countP (hasAddr a) = 0 := by
  intro fuel
  induction fuel with
  | zero => intro store i seen files _ _; simp [extractGo]
  | succ fuel ih =>
    intro store i seen files ha hi
    unfold extractGo
    split
    · rcases hpop : popMax store with _ | ⟨r, rest⟩
      · simp [hpop]
      · simp only [hpop]
        rcases hr : r.Addr with _ | b
        · simp only [hr]
          rw [List.countP_cons, ih rest (i + 1) seen files ha (by omega)]
          simp [hasAddr, hr]
        · simp only [hr]
          have hseen2 : a ∈ (if (decide (b ∈ seen) : Bool) = true then seen else b :: seen) := by
            split
            · exact ha
            · exact List.mem_cons_of_mem b ha
          by_cases hkeep : i = 0 ∨ (lookupCount files b.File < 5 ∧
              (decide (b ∈ seen) : Bool) = false)
          · rw [if_pos hkeep]
            have hba : b ≠ a := by
              rcases hkeep with h0 | ⟨_, hdup⟩
              · exact absurd h0 hi
              · intro hba
                rw [hba] at hdup
                simp [ha] at hdup
            rw [List.countP_cons,
              ih rest (i + 1) _ ((b.File, lookupCount files b.File + 1) :: files)
                hseen2 (by omega)]
            simp [hasAddr, hr, hba]
          · rw [if_neg hkeep]
            exact ih rest i _ _ hseen2 hi
    · simp

/-- With `a` not yet seen (and the maps empty whenever the cursor is still at
zero), at most one result at address `a` is kept. -/
theorem extractGo_kept_addr_le_one (a : Addr) :
    ∀ (fuel : Nat) (store : List Result) (i : Nat) (seen : List Addr)
      (files : List (String × Nat)), a ∉ seen → (i = 0 → seen = []) →
      (extractGo fuel store i seen files).1.countP (hasAddr a) ≤ 1 := by
  intro fuel
  induction fuel with
  | zero => intro store i seen files _ _; simp [extractGo]
  | succ fuel ih =>
    intro store i seen files ha h0
    unfold extractGo
    split
    · rcases hpop : popMax store with _ | ⟨r, rest⟩
      · simp [hpop]
      · simp only [hpop]
        rcases hr : r.Addr with _ | b
        · simp only [hr]
          rw [List.countP_cons]
          have hrec := ih rest (i + 1) seen files ha (by omega)
          have hf : (hasAddr a r : Bool) = false := by simp [hasAddr, hr]
          simpa [hf] using hrec
        · simp only [hr]
          by_cases hkeep : i = 0 ∨ (lookupCount files b.File < 5 ∧
              (decide (b ∈ seen) : Bool) = false)
          · rw [if_pos hkeep]
            rw [List.countP_cons]
            by_cases hba : b = a
            · subst hba
              have hdup : (decide (b ∈ seen) : Bool) = false := by simp [ha]
              have hseen2 :
                  (if (decide (b ∈ seen) : Bool) = true then seen else b :: seen) =
                    b :: seen := by rw [hdup]; simp
              have hrec := extractGo_kept_addr_zero b fuel rest (i + 1)
                (if (decide (b ∈ seen) : Bool) = true then seen else b :: seen)
                ((b.File, lookupCount files b.File + 1) :: files)
                (by rw [hseen2]; exact List.mem_cons_self b seen) (by omega)
              rw [hrec]
              simp [hasAddr, hr]
            · have hseen2 : a ∉ (if (decide (b ∈ seen) : Bool) = true then seen
                  else b :: seen) := by
                split
                · exact ha
                · intro hmem
                  rcases List.mem_cons.mp hmem with heq | hmem2
                  · exact hba heq.symm
                  · exact ha hmem2
              have hrec := ih rest (i + 1) _
                ((b.File, lookupCount files b.File + 1) :: files) hseen2 (by omega)
              have hf : (hasAddr a r : Bool) = false := by simp [hasAddr, hr, hba]
              simpa [hf] using hrec
          · rw [if_neg hkeep]
            have hi : i ≠ 0 := by
              intro h
              apply hkeep
              left
              exact h
            by_cases hba : b = a
            · subst hba
              have hseen2 :
                  b ∈ (if (decide (b ∈ seen) : Bool) = true then seen else b :: seen) := by
                split
                · next hmem => simpa using hmem
                · exact List.mem_cons_self b seen
              rw [extractGo_kept_addr_zero b fuel rest i _
                ((b.File, lookupCount files b.File + 1) :: files) hseen2 hi]
              omega
            · have hseen2 : a ∉ (if (decide (b ∈ seen) : Bool) = true then seen
                  else b :: seen) := by
                split
                · exact ha
                · intro hmem
                  rcases List.mem_cons.mp hmem with heq | hmem2
                  · exact hba heq.symm
                  · exact ha hmem2
              exact ih rest i _ _ hseen2 (fun h => absurd h hi)
    · simp

/-- C4: in every snapshot extraction, at most one result with any given
text-and-address pair advances the output cursor — duplicates at the same
address are extracted but skipped, so at most one instance of any
`(text, Address)` pair counts toward the result limit. -/
theorem C4_dedup_counts_once (store : List Result) (t : String) (a : Addr) :
    (snapshot store).1.countP (fun r => r.Text == t && hasAddr a r) ≤ 1 := by
  have hmono : (snapshot store).1.countP (fun r => r.Text == t && hasAddr a r) ≤
      (snapshot store).1.countP (hasAddr a) := by
    apply List.countP_mono_left
    intro x _ hx
    exact (Bool.and_eq_true _ _ |>.mp hx).2
  exact le_trans hmono
    (extractGo_kept_addr_le_one a store.length store 0 [] [] (by simp) (fun _ => rfl))

/-- The per-file counter bounds how many further results of file `f` can be
kept: never more than `5 - seenInFile[f]`. -/
theorem extractGo_kept_file_le (f : String) :
    ∀ (fuel : Nat) (store : List Result) (i : Nat) (seen : List Addr)
      (files : List (String × Nat)), (i = 0 → files = []) →
      (extractGo fuel store i seen files).1.countP (hasFile f) ≤
        5 - lookupCount files f := by
  intro fuel
  induction fuel with
  | zero => intro store i seen files _; simp [extractGo]
  | succ fuel ih =>
    intro store i seen files h0
    unfold extractGo
    split
    · rcases hpop : popMax store with _ | ⟨r, rest⟩
      · simp [hpop]
      · simp only [hpop]
        rcases hr : r.Addr with _ | b
        · simp only [hr]
          rw [List.countP_cons]
          have hrec := ih rest (i + 1) seen files (by omega)
          have hf2 : (hasFile f r : Bool) = false := by simp [hasFile, hr]
          rw [hf2, show (if (false = true) then (1 : Nat) else 0) = 0 from rfl]
          omega
        · simp only [hr]
          by_cases hkeep : i = 0 ∨ (lookupCount files b.File < 5 ∧
              (decide (b ∈ seen) : Bool) = false)
          · rw [if_pos hkeep]
            dsimp only
            rw [List.countP_cons]
            have hcount : lookupCount files b.File < 5 := by
              rcases hkeep with hz | ⟨hc, _⟩
              · rw [h0 hz]
                simp [lookupCount]
              · exact hc
            by_cases hbf : b.File = f
            · subst hbf
              have hrec := ih rest (i + 1)
                (if (decide (b ∈ seen) : Bool) = true then seen else b :: seen)
                ((b.File, lookupCount files b.File + 1) :: files) (by omega)
              rw [lookupCount_cons_self] at hrec
              have hfr : (hasFile b.File r : Bool) = true := by simp [hasFile, hr]
              rw [hfr, show (if (true = true) then (1 : Nat) else 0) = 1 from rfl]
              omega
            · have hrec := ih rest (i + 1)
                (if (decide (b ∈ seen) : Bool) = true then seen else b :: seen)
                ((b.File, lookupCount files b.File + 1) :: files) (by omega)
              rw [lookupCount_cons_ne b.File f hbf] at hrec
              have hfr : (hasFile f r : Bool) = false := by simp [hasFile, hr, hbf]
              rw [hfr, show (if (false = true) then (1 : Nat) else 0) = 0 from rfl]
              omega
          · rw [if_neg hkeep]
            dsimp only
            have hi : i ≠ 0 := fun h => hkeep (Or.inl h)
            by_cases hbf : b.File = f
            · subst hbf
              have hrec := ih rest i
                (if (decide (b ∈ seen) : Bool) = true then seen else b :: seen)
                ((b.File, lookupCount files b.File + 1) :: files)
                (fun h => absurd h hi)
              rw [lookupCount_cons_self] at hrec
              omega
            · have hrec := ih rest i
                (if (decide (b ∈ seen) : Bool) = true then seen else b :: seen)
                ((b.File, lookupCount files b.File + 1) :: files)
                (fun h => absurd h hi)
              rw [lookupCount_cons_ne b.File f hbf] at hrec
              omega
    · simp

/-- Builds a candidate in file `a.go` for the C5 scenario. -/
def capR (t line : String) (s : ℚ) : Result :=
  ⟨t, some ⟨"a.go", line, "", "", ""⟩, Score.val s⟩

/-- Ten candidates sharing the file `a.go`, scores 10 down to 1. -/
def sameFileStore : List Result :=
  [capR "t10" "10" 10, capR "t9" "9" 9, capR "t8" "8" 8, capR "t7" "7" 7,
   capR "t6" "6" 6, capR "t5" "5" 5, capR "t4" "4" 4, capR "t3" "3" 3,
   capR "t2" "2" 2, capR "t1" "1" 1]

/-- Builds an address-less candidate. -/
def nilR (t : String) (s : ℚ) : Result := ⟨t, none, Score.val s⟩

/-- Six address-less candidates, scores 6 down to 1. -/
def nilAddrStore : List Result :=
  [nilR "w6" 6, nilR "w5" 5, nilR "w4" 4, nilR "w3" 3, nilR "w2" 2, nilR "w1" 1]

/-- C5: (a) every snapshot extraction keeps at most 5 results sharing any one
file; (b) ten candidates of one file with scores 10..1 yield exactly the five
highest-scoring ones (the limit here is the code's `MaxResults = 100 ≥ 10`);
(c) address-less results are never group-capped and each counts toward the
overall limit: all six are kept. -/
theorem C5_per_group_cap :
    (∀ (store : List Result) (f : String), (snapshot store).1.countP (hasFile f) ≤ 5) ∧
    (snapshot sameFileStore).1 =
      [capR "t10" "10" 10, capR "t9" "9" 9, capR "t8" "8" 8, capR "t7" "7" 7,
       capR "t6" "6" 6] ∧
    (snapshot nilAddrStore).1 = nilAddrStore := by
  refine ⟨?_, by decide, by decide⟩
  intro store f
  have h := extractGo_kept_file_le f store.length store 0 [] [] (fun _ => rfl)
  simpa [lookupCount] using h

/-! ## Claim C7 -/

theorem Range.compare_eq_zero_iff (r : Range) (q0 : Int) :
    r.Compare q0 = 0 ↔ (r.Start ≤ q0 ∧ q0 < r.End) := by
  unfold Range.Compare
  split_ifs with h1 h2
  · constructor
    · intro h
      exact absurd h (by decide)
    · intro h
      omega
  · constructor
    · intro h
      exact absurd h (by decide)
    · intro h
      omega
  · constructor
    · intro h
      exact ⟨by omega, by omega⟩
    · intro h
      rfl

theorem firstGE_eq (q0 : Int) :
    ∀ (ranges : List Range) (k : Nat) (hk : k < ranges.length),
      (∀ r ∈ ranges, r.Start ≤ r.End) →
      ranges.Pairwise (fun a b => a.End ≤ b.Start) →
      (ranges.get ⟨k, hk⟩).Start ≤ q0 → q0 < (ranges.get ⟨k, hk⟩).End →
      firstGE ranges q0 = k := by
  intro ranges
  induction ranges with
  | nil => intro k hk; simp at hk
  | cons r rest ih =>
    intro k hk hwf hpw hs he
    cases k with
    | zero =>
      have hc : r.Compare q0 = 0 :=
        (Range.compare_eq_zero_iff r q0).mpr ⟨hs, he⟩
      unfold firstGE
      rw [if_pos (by omega)]
    | succ j =>
      have hj : j < rest.length := by simpa using hk
      have hs2 : (rest.get ⟨j, hj⟩).Start ≤ q0 := hs
      have he2 : q0 < (rest.get ⟨j, hj⟩).End := he
      have hmem : rest.get ⟨j, hj⟩ ∈ rest := List.get_mem rest j hj
      have hEnd : r.End ≤ (rest.get ⟨j, hj⟩).Start :=
        (List.pairwise_cons.mp hpw).1 _ hmem
      have hwfr : r.Start ≤ r.End := hwf r (List.mem_cons_self r rest)
      have hcmp : r.Compare q0 = -1 := by
        unfold Range.Compare
        rw [if_neg (by omega), if_pos (by omega)]
      unfold firstGE
      rw [if_neg (by omega)]
      rw [ih j hj (fun x hx => hwf x (List.mem_cons_of_mem r hx))
        (List.pairwise_cons.mp hpw).2 hs2 he2]
      omega

theorem Plumb_none_of_gap (ranges : List Range) (results : List Result) (q0 : Int)
    (h : ∀ r ∈ ranges, ¬(r.Start ≤ q0 ∧ q0 < r.End)) :
    Plumb ranges results q0 = none := by
  have hfound : (binarySearchFunc ranges q0).2 = false := by
    unfold binarySearchFunc
    dsimp only
    by_cases hlt : firstGE ranges q0 < ranges.length
    · have hget : ranges.getD (firstGE ranges q0) ⟨0, 0⟩ =
          ranges.get ⟨firstGE ranges q0, hlt⟩ :=
        List.getD_eq_get ranges ⟨0, 0⟩ hlt
      have hne : (ranges.get ⟨firstGE ranges q0, hlt⟩).Compare q0 ≠ 0 := by
        intro hc
        exact h _ (List.get_mem ranges _ hlt)
          ((Range.compare_eq_zero_iff _ q0).mp hc)
      rw [hget]
      have hbeq : ((ranges.get ⟨firstGE ranges q0, hlt⟩).Compare q0 == 0) = false := by
        simpa using hne
      rw [hbeq]
      simp
    · simp [hlt]
  unfold Plumb
  split
  · rfl
  · rw [if_pos hfound]

/-- C7: over a sorted, non-overlapping sequence of half-open ranges paired
with results, `Plumb` resolves an offset inside range `k` to result `k` (some
result when it carries an address, no result when it does not), and resolves
to no result any offset lying in no range (before the first range, in a gap,
or at or past the exclusive end of the last range). -/
theorem C7_resolve (ranges : List Range) (results : List Result) (q0 : Int)
    (hwf : ∀ r ∈ ranges, r.Start ≤ r.End)
    (hpw : ranges.Pairwise (fun a b => a.End ≤ b.Start))
    (hlen : results.length = ranges.length) :
    (∀ (k : Nat) (hk : k < ranges.length),
      (ranges.get ⟨k, hk⟩).Start ≤ q0 → q0 < (ranges.get ⟨k, hk⟩).End →
      Plumb ranges results q0 =
        (if (results.getD k ⟨"", none, Score.val 0⟩).Addr.isSome = true
         then some (results.getD k ⟨"", none, Score.val 0⟩) else none)) ∧
    ((∀ r ∈ ranges, ¬(r.Start ≤ q0 ∧ q0 < r.End)) →
      Plumb ranges results q0 = none) := by
  constructor
  · intro k hk hs he
    have hfge : firstGE ranges q0 = k := firstGE_eq q0 ranges k hk hwf hpw hs he
    have hpos : 0 < ranges.length := by omega
    have hhead : ranges.headD ⟨0, 0⟩ = ranges.get ⟨0, hpos⟩ := by
      cases ranges with
      | nil => simp at hk
      | cons a rest => rfl
    have hstart0 : (ranges.get ⟨0, hpos⟩).Start ≤ q0 := by
      cases Nat.eq_zero_or_pos k with
      | inl hz =>
        subst hz
        exact hs
      | inr hkp =>
        have hrel : (ranges.get ⟨0, hpos⟩).End ≤ (ranges.get ⟨k, hk⟩).Start := by
          have h2 := List.pairwise_iff_getElem.mp hpw 0 k hpos hk hkp
          simpa [List.get_eq_getElem] using h2
        have hw0 : (ranges.get ⟨0, hpos⟩).Start ≤ (ranges.get ⟨0, hpos⟩).End :=
          hwf _ (List.get_mem ranges 0 hpos)
        omega
    have hcmp : (ranges.get ⟨k, hk⟩).Compare q0 = 0 :=
      (Range.compare_eq_zero_iff _ q0).mpr ⟨hs, he⟩
    have hbsf : binarySearchFunc ranges q0 = (k, true) := by
      unfold binarySearchFunc
      dsimp only
      rw [hfge, List.getD_eq_get ranges ⟨0, 0⟩ hk, hcmp]
      simp [hk]
    unfold Plumb
    rw [if_neg (by
      rw [hhead]
      push_neg
      exact ⟨by omega, hstart0⟩)]
    rw [hbsf]
    dsimp only
    rcases haddr : (results.getD k ⟨"", none, Score.val 0⟩).Addr with _ | a
    · rw [if_neg (by simp)]
      simp [haddr]
    · rw [if_neg (by simp)]
      simp [haddr]
  · exact Plumb_none_of_gap ranges results q0

/-- First result of the C7 witness scenario. -/
def wRes0 : Result := ⟨"R0", some ⟨"r0.go", "1", "", "", ""⟩, Score.val 1⟩

/-- Second result of the C7 witness scenario. -/
def wRes1 : Result := ⟨"R1", some ⟨"r1.go", "2", "", "", ""⟩, Score.val 1⟩

/-- Witness for C7: ranges `[(0,5), (5,12)]` — offset 5 resolves to the second
result, offset 12 (the exclusive end) resolves to no result. -/
theorem C7_witness :
    Plumb [⟨0, 5⟩, ⟨5, 12⟩] [wRes0, wRes1] 5 = some wRes1 ∧
    Plumb [⟨0, 5⟩, ⟨5, 12⟩] [wRes0, wRes1] 12 = none := by
  constructor
  · have h := (C7_resolve [⟨0, 5⟩, ⟨5, 12⟩] [wRes0, wRes1] 5
      (by decide) (by decide) (by decide)).1 1 (by decide) (by decide) (by decide)
    exact h.trans (by decide)
  · exact (C7_resolve [⟨0, 5⟩, ⟨5, 12⟩] [wRes0, wRes1] 12
      (by decide) (by decide) (by decide)).2 (by decide)

/-! ## Claim C8 -/

theorem processRound_foldl (query path : String) :
    ∀ (l : List Result) (acc : List Result),
      ((l.foldl (insertStep query path) acc : List Result) : Multiset Result) =
        (acc : Multiset Result) +
          (((l.map (fun r => scoreResult query (relativizeAddr path r))).filter
            (fun r => Score.blt (Score.val 0) r.Score) : List Result) : Multiset Result) := by
  intro l
  induction l with
  | nil => intro acc; simp
  | cons r rest ih =>
    intro acc
    rw [List.foldl_cons, List.map_cons, List.filter_cons]
    by_cases hpos : Score.blt (Score.val 0) (scoreResult query (relativizeAddr path r)).Score
    · rw [if_pos hpos]
      have hstep : insertStep query path acc r =
          scoreResult query (relativizeAddr path r) :: acc := by
        unfold insertStep
        rw [if_pos hpos]
      rw [hstep, ih]
      simp [Multiset.cons_add, Multiset.add_cons]
      exact List.perm_middle.symm
    · rw [if_neg hpos]
      have hstep : insertStep query path acc r = acc := by
        unfold insertStep
        rw [if_neg hpos]
      rw [hstep, ih]

/-- C8: after a round's merge loop receives any sequence of candidates (no
interleaved render), the heap holds exactly the received candidates — path
relativised and scored — whose score is strictly positive, as a multiset; in
particular every stored candidate's score is strictly positive. -/
theorem C8_insert_iff_positive (query path : String) (received : List Result) :
    ((processRound query path received : List Result) : Multiset Result) =
      (((received.map (fun r => scoreResult query (relativizeAddr path r))).filter
        (fun r => Score.blt (Score.val 0) r.Score) : List Result) : Multiset Result) ∧
    (∀ r ∈ processRound query path received, Score.val 0 < r.Score) := by
  have hmain := processRound_foldl query path received []
  constructor
  · simpa [processRound] using hmain
  · intro r hr
    have hperm : (processRound query path received).Perm
        ((received.map (fun r => scoreResult query (relativizeAddr path r))).filter
          (fun r => Score.blt (Score.val 0) r.Score)) := by
      simpa [processRound] using hmain
    have hp := List.of_mem_filter (hperm.mem_iff.mp hr)
    exact hp
